import Mathlib

/-!
Verification of the from-scratch recurrent cell of
`ch09_recurrent-neural-networks/5-rnn-scratch-2.ipynb` (class `RNNScratch`).

The forward computation is shallowly embedded: jnp arrays of floats become
lists of lists of real numbers, `jnp.matmul` becomes a guarded matrix
product that fails on an inner-dimension mismatch (as jnp does, before any
arithmetic is performed), `jnp.tanh` becomes the element-wise real
hyperbolic tangent, and the Python `for` loop with `outputs.append(state)`
becomes a left fold that appends each new state.
-/

noncomputable section

/-- A row of real entries (floating-point values idealised as reals). -/
abbrev Vec := List ℝ

/-- A matrix, stored as its list of rows. -/
abbrev Mat := List Vec

/-- The failures the forward computation can surface: a dimension mismatch
raised by the matrix product, and the `ValueError` raised by the tuple
unpacking `state, = state` when the iterable does not have exactly one
element. -/
inductive RNNError
  | shapeMismatch
  | valueError
deriving DecidableEq

/-- Dot product of two rows. -/
def dot (u v : Vec) : ℝ := (List.zipWith (fun a b => a * b) u v).sum

/-- Column count of a matrix, read off its first row (the second component
of a jnp array's shape; rectangular by construction in jnp). -/
def numCols (B : Mat) : Nat := (B.headD []).length

/-- The product `jnp.matmul A B`: the inner dimensions must agree, which is checked
before any arithmetic; then entry (i, j) is the dot product of row i of
`A` with column j of `B`. -/
def matmul (A B : Mat) : Except RNNError Mat :=
  if A.all (fun r => r.length == B.length) then
    .ok (A.map (fun r => (List.range (numCols B)).map
      (fun j => dot r (B.map (fun br => br.getD j 0)))))
  else .error .shapeMismatch

/-- Element-wise sum of two same-shaped matrices (the `+` between the two
matmul results). -/
def matAdd (A B : Mat) : Mat := List.zipWith (List.zipWith (fun a b => a + b)) A B

/-- Adding the bias vector `b_h` to every row (the jnp broadcast of a
`(num_hiddens,)` array over the batch dimension). -/
def addRowVec (A : Mat) (v : Vec) : Mat :=
  A.map (fun r => List.zipWith (fun a b => a + b) r v)

/-- The map `jnp.tanh`, element-wise. -/
def tanhMat (A : Mat) : Mat := A.map (List.map Real.tanh)

/-- The parameters held by an `RNNScratch` module: `W_xh`, `W_hh`, `b_h`
and the recorded `num_hiddens`. -/
structure RNNScratch where
  W_xh : Mat
  W_hh : Mat
  b_h : Vec
  num_hiddens : Nat

/-- Constructor `RNNScratch.__init__`: `W_xh` and `W_hh` are drawn by `he_normal` with
shapes `(num_inputs, num_hiddens)` and `(num_hiddens, num_hiddens)`, and
`b_h` is `zeros` of length `num_hiddens`.  The function `draw` models the
values produced by the random initializer. -/
def initRNN (num_inputs num_hiddens : Nat) (draw : Nat → Nat → Nat → ℝ) : RNNScratch :=
  ⟨(List.range num_inputs).map (fun i => (List.range num_hiddens).map (fun j => draw 0 i j)),
   (List.range num_hiddens).map (fun i => (List.range num_hiddens).map (fun j => draw 1 i j)),
   (List.range num_hiddens).map (fun _ => (0 : ℝ)),
   num_hiddens⟩

/-- The body of the `for X in inputs` loop of `RNNScratch.__call__`:
`state = jnp.tanh(jnp.matmul(X, self.W_xh)
  + (jnp.matmul(state, self.W_hh) if state is not None else 0)
  + self.b_h)`.
When `state is None` the parenthesised term is the scalar `0`, so the sum
reduces to the first matmul plus the bias. -/
def rnnStep (p : RNNScratch) (X : Mat) (state : Option Mat) : Except RNNError Mat := do
  let xh ← matmul X p.W_xh
  let acc ←
    match state with
    | some s => do
        let hh ← matmul s p.W_hh
        pure (matAdd xh hh)
    | none => pure xh
  pure (tanhMat (addRowVec acc p.b_h))

/-- One iteration of the loop acting on the accumulated
`(outputs, state)` pair: run the step on the current state and append the
new state to `outputs`. -/
def callBody (p : RNNScratch) (acc : Except RNNError (List Mat × Option Mat)) (X : Mat) :
    Except RNNError (List Mat × Option Mat) := do
  let r ← acc
  let s ← rnnStep p X r.2
  pure (r.1 ++ [s], some s)

/-- The loop of `RNNScratch.__call__`: `outputs = []`, then for each `X`
in `inputs` (in order) update the state and append it; returns
`(outputs, state)`. -/
def rnnForward (p : RNNScratch) (inputs : List Mat) (state : Option Mat) :
    Except RNNError (List Mat × Option Mat) :=
  inputs.foldl (callBody p) (.ok ([], state))

/-- The Python unpacking `state, = state`: succeeds exactly on an iterable
of length one, yielding its sole element, and raises `ValueError`
otherwise.  It is polymorphic because Python will just as happily iterate
the rows of a bare matrix as the elements of a tuple. -/
def unpack1 {α : Type} : List α → Except RNNError α
  | [a] => .ok a
  | _ => .error .valueError

/-- Method `RNNScratch.__call__`: if an initial state was supplied it is a
sequence that is unpacked via `state, = state`; then the loop runs. -/
def rnnCall (p : RNNScratch) (inputs : List Mat) (state : Option (List Mat)) :
    Except RNNError (List Mat × Option Mat) := do
  let st ←
    match state with
    | some s => do
        let m ← unpack1 s
        pure (some m)
    | none => pure (none : Option Mat)
  rnnForward p inputs st

/-- Method `RNNScratch.__call__` viewed as a transformer of the module object:
the body reads `self.W_xh`, `self.W_hh`, `self.b_h` and assigns no
attribute, so the module comes back exactly as it went in. -/
def rnnCallM (p : RNNScratch) (inputs : List Mat) (state : Option (List Mat)) :
    Except RNNError (List Mat × Option Mat) × RNNScratch :=
  (rnnCall p inputs state, p)

/-- Predicate stating that `A` is an `r` by `c` matrix. -/
def wellShaped (A : Mat) (r c : Nat) : Prop :=
  A.length = r ∧ ∀ row ∈ A, row.length = c

/-- The construction invariant of `RNNScratch.__init__`: the three
parameter tensors have shapes `(d, h)`, `(h, h)` and `(h,)`, and the
module records `num_hiddens = h`. -/
def ParamsWF (p : RNNScratch) (d h : Nat) : Prop :=
  wellShaped p.W_xh d h ∧ wellShaped p.W_hh h h ∧ p.b_h.length = h ∧ p.num_hiddens = h

/-- The zero matrix `jnp.zeros((r, c))`. -/
def zeros (r c : Nat) : Mat := List.replicate r (List.replicate c (0 : ℝ))

/-- Entry (i, j) of a matrix, with 0 as out-of-range default. -/
def entry (A : Mat) (i j : Nat) : ℝ := (A.getD i []).getD j 0

/-- The specification's formula for one recurrence step, written
entrywise: `next_state[i][j] = tanh((x · W_xh)[i][j] + (prev · W_hh)[i][j]
+ b_h[j])`, with the middle term zero when the previous state is absent. -/
def specStepEntry (p : RNNScratch) (X : Mat) (st : Option Mat) (d h i j : Nat) : ℝ :=
  Real.tanh ((∑ k ∈ Finset.range d, entry X i k * entry p.W_xh k j)
    + (match st with
       | some s => ∑ k ∈ Finset.range h, entry s i k * entry p.W_hh k j
       | none => 0)
    + p.b_h.getD j 0)

/-- The specification's sequence driver, written as direct recursion:
for each step in order compute `state := step(input, state)` and append
`state` to the output sequence. -/
def specDriver (p : RNNScratch) : List Mat → Option Mat → Except RNNError (List Mat × Option Mat)
  | [], st => .ok ([], st)
  | X :: rest, st => do
      let s ← rnnStep p X st
      let r ← specDriver p rest (some s)
      pure (s :: r.1, r.2)

/-- An admissible previous-state argument for batch size `b` and hidden
width `h`: absent, or a `b` by `h` matrix. -/
def stateOK (st : Option Mat) (b h : Nat) : Prop :=
  st = none ∨ ∃ s, st = some s ∧ wellShaped s b h

/-- A step result that succeeded with a `b` by `h` matrix. -/
def okShaped (r : Except RNNError Mat) (b h : Nat) : Prop :=
  match r with
  | .ok M => wellShaped M b h
  | .error _ => False

/-- Every input of the sequence is a `b` by `d` matrix. -/
def inputsShaped (inputs : List Mat) (b d : Nat) : Prop :=
  ∀ X ∈ inputs, wellShaped X b d

/-- Every hidden state a successful run of the driver produced is a `b` by
`h` matrix (vacuous on a failed run, which produces none). -/
def outputsWellShaped (r : Except RNNError (List Mat × Option Mat)) (b h : Nat) : Prop :=
  match r with
  | .ok q => ∀ M ∈ q.1, wellShaped M b h
  | .error _ => True

/-- Every entry of the matrix lies strictly between −1 and 1. -/
def entriesInOpenUnit (M : Mat) : Prop :=
  ∀ row ∈ M, ∀ x ∈ row, -1 < x ∧ x < 1

theorem except_bind_ok {α β : Type} (a : α) (f : α → Except RNNError β) :
    (Except.ok a >>= f) = f a := rfl

theorem except_bind_error {α β : Type} (e : RNNError) (f : α → Except RNNError β) :
    ((Except.error e : Except RNNError α) >>= f) = .error e := rfl

theorem except_pure_eq {α : Type} (a : α) : (pure a : Except RNNError α) = .ok a := rfl

theorem except_fmap_ok {α β : Type} (f : α → β) (a : α) :
    (f <$> (Except.ok a : Except RNNError α)) = .ok (f a) := rfl

theorem except_fmap_error {α β : Type} (f : α → β) (e : RNNError) :
    (f <$> (Except.error e : Except RNNError α)) = .error e := rfl

theorem except_map_ok' {α β : Type} (f : α → β) (a : α) :
    Except.map f (Except.ok a : Except RNNError α) = .ok (f a) := rfl

theorem except_map_error' {α β : Type} (f : α → β) (e : RNNError) :
    Except.map f (Except.error e : Except RNNError α) = .error e := rfl

theorem callBody_error (p : RNNScratch) (e : RNNError) (X : Mat) :
    callBody p (.error e) X = .error e := rfl

theorem foldl_callBody_error (p : RNNScratch) (e : RNNError) :
    ∀ inputs : List Mat, inputs.foldl (callBody p) (.error e) = .error e := by
  intro inputs
  induction inputs with
  | nil => rfl
  | cons X rest ih => rw [List.foldl_cons, callBody_error]; exact ih

theorem foldl_callBody_ok (p : RNNScratch) :
    ∀ (inputs : List Mat) (st : Option Mat) (outs0 : List Mat),
      inputs.foldl (callBody p) (.ok (outs0, st)) =
        (specDriver p inputs st).map (fun r => (outs0 ++ r.1, r.2)) := by
  intro inputs
  induction inputs with
  | nil => intro st outs0; simp [specDriver, except_map_ok']
  | cons X rest ih =>
      intro st outs0
      rw [List.foldl_cons]
      cases hstep : rnnStep p X st with
      | error e =>
          have hbody : callBody p (.ok (outs0, st)) X = .error e := by
            simp [callBody, except_bind_ok, except_bind_error, except_fmap_ok,
              except_fmap_error, except_pure_eq, hstep]
          rw [hbody, foldl_callBody_error]
          simp only [specDriver]
          rw [hstep]
          simp [except_bind_error, except_fmap_error, except_map_error']
      | ok s =>
          have hbody : callBody p (.ok (outs0, st)) X = .ok (outs0 ++ [s], some s) := by
            simp [callBody, except_bind_ok, except_bind_error, except_fmap_ok,
              except_fmap_error, except_pure_eq, hstep]
          rw [hbody, ih]
          simp only [specDriver]
          rw [hstep]
          simp only [except_bind_ok]
          cases hrest : specDriver p rest (some s) with
          | error e =>
              simp [except_bind_error, except_fmap_error, except_map_error']
          | ok r =>
              simp [except_bind_ok, except_fmap_ok, except_pure_eq, except_map_ok']

theorem rnnForward_eq_specDriver (p : RNNScratch) (inputs : List Mat) (st : Option Mat) :
    rnnForward p inputs st = specDriver p inputs st := by
  rw [rnnForward, foldl_callBody_ok]
  cases specDriver p inputs st with
  | error e => rfl
  | ok r => simp [except_map_ok']

theorem specDriver_ok_spec (p : RNNScratch) :
    ∀ (inputs : List Mat) (st : Option Mat) (outs : List Mat) (fin : Option Mat),
      specDriver p inputs st = .ok (outs, fin) →
      outs.length = inputs.length ∧ (outs = [] → fin = st) ∧
        (outs ≠ [] → fin = outs.getLast?) := by
  intro inputs
  induction inputs with
  | nil =>
      intro st outs fin h
      simp only [specDriver, Except.ok.injEq, Prod.mk.injEq] at h
      obtain ⟨h1, h2⟩ := h
      subst h1; subst h2
      simp
  | cons X rest ih =>
      intro st outs fin h
      simp only [specDriver] at h
      cases hstep : rnnStep p X st with
      | error e =>
          rw [hstep] at h
          simp [except_bind_error] at h
      | ok s =>
          rw [hstep] at h
          simp only [except_bind_ok] at h
          cases hrest : specDriver p rest (some s) with
          | error e =>
              rw [hrest] at h
              simp [except_bind_error, except_fmap_error] at h
          | ok r =>
              obtain ⟨outs2, fin2⟩ := r
              rw [hrest] at h
              simp only [except_bind_ok, except_fmap_ok, except_pure_eq,
                Except.ok.injEq, Prod.mk.injEq] at h
              obtain ⟨h1, h2⟩ := h
              subst h1; subst h2
              obtain ⟨ihl, ihe, ihne⟩ := ih (some s) outs2 fin2 hrest
              refine ⟨by simp [ihl], by simp, ?_⟩
              intro _
              cases outs2 with
              | nil =>
                  rw [ihe rfl]
                  simp
              | cons y t =>
                  rw [ihne (by simp), List.getLast?_cons_cons]


theorem real_tanh_lt_one (x : ℝ) : Real.tanh x < 1 := by
  rw [Real.tanh_eq_sinh_div_cosh, div_lt_one (Real.cosh_pos x)]
  exact Real.sinh_lt_cosh x

theorem neg_one_lt_real_tanh (x : ℝ) : -1 < Real.tanh x := by
  rw [Real.tanh_eq_sinh_div_cosh, lt_div_iff₀ (Real.cosh_pos x)]
  have h := Real.cosh_add_sinh x
  have he := Real.exp_pos x
  linarith

theorem rnnStep_ok_tanh (p : RNNScratch) (X : Mat) (st : Option Mat) (M : Mat)
    (h : rnnStep p X st = .ok M) : ∃ A, M = tanhMat A := by
  simp only [rnnStep] at h
  cases hxh : matmul X p.W_xh with
  | error e => rw [hxh, except_bind_error] at h; simp at h
  | ok xh =>
      rw [hxh, except_bind_ok] at h
      cases st with
      | none =>
          simp only [except_pure_eq, except_bind_ok, except_fmap_ok,
            Except.ok.injEq] at h
          exact ⟨_, h.symm⟩
      | some s =>
          cases hhh : matmul s p.W_hh with
          | error e =>
              simp [hhh, except_bind_error, except_fmap_error] at h
          | ok hh =>
              simp only [hhh, except_bind_ok, except_fmap_ok, except_pure_eq,
                Except.ok.injEq] at h
              exact ⟨_, h.symm⟩

/-- A fixed concrete module with `num_inputs = num_hiddens = 1` and all
parameter entries zero, used to exercise the theorems on a concrete run. -/
def pW : RNNScratch := ⟨[[0]], [[0]], [0], 1⟩

theorem pW_step_eval : rnnStep pW [[0]] none = .ok [[0]] := by
  have hm : matmul [[(0 : ℝ)]] [[(0 : ℝ)]] = .ok [[0]] := by
    simp [matmul, numCols, dot, List.range_succ]
  simp [rnnStep, pW, hm, except_bind_ok, except_pure_eq, addRowVec, tanhMat,
    Real.tanh_zero]

theorem pW_forward_eval : rnnForward pW [[[0]]] none = .ok ([[[0]]], some [[0]]) := by
  simp [rnnForward, callBody, pW_step_eval, except_bind_ok, except_pure_eq]

/-- C4: on a zero-length input sequence the driver returns an empty output
sequence together with the initial hidden state unchanged, and returns the
sentinel `none` when no initial state was supplied. -/
theorem rnn_call_empty_inputs (p : RNNScratch) (s : Mat) :
    rnnCall p [] (some [s]) = .ok ([], some s) ∧ rnnCall p [] none = .ok ([], none) :=
  ⟨rfl, rfl⟩

/-- C5: on a nonempty input sequence, a successful run of the driver
returns one hidden state per input, and its final state is the last
element of the returned output sequence. -/
theorem rnn_forward_final_last (p : RNNScratch) (inputs : List Mat) (st : Option Mat)
    (outs : List Mat) (fin : Option Mat) (hne : inputs ≠ [])
    (h : rnnForward p inputs st = .ok (outs, fin)) :
    outs.length = inputs.length ∧ fin = outs.getLast? := by
  rw [rnnForward_eq_specDriver] at h
  obtain ⟨hl, _, hlast⟩ := specDriver_ok_spec p inputs st outs fin h
  refine ⟨hl, hlast ?_⟩
  intro hnil
  subst hnil
  exact hne (List.length_eq_zero.mp hl.symm)

theorem rnn_forward_final_last_witness :
    ([[[(0 : ℝ)]]] : List Mat).length = ([[[(0 : ℝ)]]] : List Mat).length ∧
      (some [[(0 : ℝ)]] : Option Mat) = ([[[(0 : ℝ)]]] : List Mat).getLast? :=
  rnn_forward_final_last pW [[[0]]] none [[[0]]] (some [[0]]) (by simp) pW_forward_eval

/-- C7: the sequence driver is deterministic and retains no hidden state
between calls: identical parameters, inputs and initial state give
identical results, and running a first forward pass leaves the module a
second call reads unchanged. -/
theorem rnn_call_deterministic (p q : RNNScratch) (i1 i2 : List Mat)
    (s1 s2 : Option (List Mat)) (hp : p = q) (hi : i1 = i2) (hs : s1 = s2) :
    rnnCall p i1 s1 = rnnCall q i2 s2 ∧
      rnnCall (rnnCallM p i1 s1).2 i2 s2 = rnnCall q i2 s2 := by
  subst hp; subst hi; subst hs; exact ⟨rfl, rfl⟩

theorem rnn_call_deterministic_witness :
    rnnCall pW [] none = rnnCall pW [] none ∧
      rnnCall (rnnCallM pW [] none).2 [] none = rnnCall pW [] none :=
  rnn_call_deterministic pW pW [] [] none none rfl rfl rfl

/-- C8: the forward computation never mutates the parameter tensors: after
any invocation, `W_xh`, `W_hh` and `b_h` (indeed the whole module) are
unchanged. -/
theorem rnn_call_no_mutation (p : RNNScratch) (inputs : List Mat)
    (st : Option (List Mat)) :
    (rnnCallM p inputs st).2.W_xh = p.W_xh ∧ (rnnCallM p inputs st).2.W_hh = p.W_hh ∧
      (rnnCallM p inputs st).2.b_h = p.b_h ∧ (rnnCallM p inputs st).2 = p :=
  ⟨rfl, rfl, rfl, rfl⟩

/-- C9: every entry of a successfully computed step output lies strictly
between −1 and 1, because the output is an element-wise hyperbolic
tangent. -/
theorem rnn_step_range (p : RNNScratch) (X : Mat) (st : Option Mat) (M : Mat)
    (h : rnnStep p X st = .ok M) : entriesInOpenUnit M := by
  obtain ⟨A, rfl⟩ := rnnStep_ok_tanh p X st M h
  intro row hrow x hx
  simp only [tanhMat, List.mem_map] at hrow
  obtain ⟨r0, _, rfl⟩ := hrow
  simp only [List.mem_map] at hx
  obtain ⟨y, _, rfl⟩ := hx
  exact ⟨neg_one_lt_real_tanh y, real_tanh_lt_one y⟩

theorem rnn_step_range_witness : entriesInOpenUnit [[(0 : ℝ)]] :=
  rnn_step_range pW [[0]] none [[0]] pW_step_eval

/-- C10: the driver's initial-state argument and returned state are
asymmetric: a supplied state is a sequence that must have length one (the
unpacking fails with `ValueError` otherwise, before any recurrence is
computed), the recurrence then runs on the unpacked bare matrix, and
iterating a bare returned matrix whose batch size is not 1 makes the same
unpacking fail. -/
theorem rnn_call_unpack_asymmetry (p : RNNScratch) (inputs inputs2 : List Mat)
    (ss : List Mat) (s m : Mat) (hss : ss.length ≠ 1) (hm : m.length ≠ 1) :
    rnnCall p inputs (some ss) = .error .valueError ∧
      rnnCall p inputs2 (some [s]) = rnnForward p inputs2 (some s) ∧
      unpack1 m = (.error .valueError : Except RNNError Vec) := by
  refine ⟨?_, rfl, ?_⟩
  · have hu : unpack1 ss = (.error .valueError : Except RNNError Mat) := by
      cases ss with
      | nil => rfl
      | cons a t =>
          cases t with
          | nil => simp at hss
          | cons b t2 => rfl
    simp [rnnCall, hu, except_bind_error]
  · cases m with
    | nil => rfl
    | cons a t =>
        cases t with
        | nil => simp at hm
        | cons b t2 => rfl

theorem rnn_call_unpack_asymmetry_witness :
    rnnCall pW [] (some []) = .error .valueError ∧
      rnnCall pW [] (some [[[(0 : ℝ)]]]) = rnnForward pW [] (some [[(0 : ℝ)]]) ∧
      unpack1 [[(0 : ℝ)], [0]] = (.error .valueError : Except RNNError Vec) :=
  rnn_call_unpack_asymmetry pW [] [] [] [[0]] [[0], [0]] (by simp) (by simp)


theorem numCols_of_wellShaped (B : Mat) (n m : Nat) (hB : wellShaped B n m)
    (hnm : 0 < n ∨ m = 0) : numCols B = m := by
  obtain ⟨hlen, hrows⟩ := hB
  cases B with
  | nil =>
      simp only [List.length_nil] at hlen
      simp only [numCols, List.headD_nil, List.length_nil]
      cases hnm with
      | inl hn => omega
      | inr hm => omega
  | cons r t => simpa [numCols] using hrows r (by simp)

theorem matmul_ok (A B : Mat) (h : ∀ r ∈ A, r.length = B.length) :
    matmul A B = .ok (A.map (fun r => (List.range (numCols B)).map
      (fun j => dot r (B.map (fun br => br.getD j 0))))) := by
  have hc : A.all (fun r => r.length == B.length) = true := by
    rw [List.all_eq_true]
    intro r hr
    simp [h r hr]
  rw [matmul, if_pos hc]

theorem matmul_error (A B : Mat) (r : Vec) (hr : r ∈ A) (hne : r.length ≠ B.length) :
    matmul A B = .error .shapeMismatch := by
  have hc : A.all (fun r => r.length == B.length) = false := by
    rw [List.all_eq_false]
    exact ⟨r, hr, by simp [hne]⟩
  simp [matmul, hc]

theorem zipWith_mul_sum (n : Nat) :
    ∀ u v : Vec, u.length = n → v.length = n →
      (List.zipWith (fun a b => a * b) u v).sum =
        ∑ k ∈ Finset.range n, u.getD k 0 * v.getD k 0 := by
  induction n with
  | zero =>
      intro u v hu hv
      rw [List.length_eq_zero.mp hu, List.length_eq_zero.mp hv]
      simp
  | succ n ih =>
      intro u v hu hv
      cases u with
      | nil => simp at hu
      | cons a u2 =>
          cases v with
          | nil => simp at hv
          | cons b v2 =>
              simp only [List.zipWith_cons_cons, List.sum_cons]
              rw [Finset.sum_range_succ' (fun k => (a :: u2).getD k 0 * (b :: v2).getD k 0) n]
              simp only [List.getD_cons_succ, List.getD_cons_zero]
              rw [ih u2 v2 (by simpa using hu) (by simpa using hv)]
              ring

theorem matmul_ok_shape (A B : Mat) (a n m : Nat) (hA : wellShaped A a n)
    (hB : wellShaped B n m) (hnm : 0 < n ∨ m = 0) :
    ∃ C, matmul A B = .ok C ∧ wellShaped C a m ∧
      ∀ i j, i < a → j < m →
        entry C i j = ∑ k ∈ Finset.range n, entry A i k * entry B k j := by
  have hcols : numCols B = m := numCols_of_wellShaped B n m hB hnm
  have hlens : ∀ r ∈ A, r.length = B.length := by
    intro r hr
    rw [hA.2 r hr, hB.1]
  refine ⟨_, matmul_ok A B hlens, ⟨by simp [hA.1], ?_⟩, ?_⟩
  · intro row hrow
    simp only [List.mem_map] at hrow
    obtain ⟨r, _, rfl⟩ := hrow
    simp [hcols]
  · intro i j hi hj
    have hiA : i < A.length := by rw [hA.1]; exact hi
    have hiC : i < (A.map (fun r => (List.range (numCols B)).map
        (fun j => dot r (B.map (fun br => br.getD j 0))))).length := by
      simpa using hiA
    rw [entry, List.getD_eq_getElem _ _ hiC, List.getElem_map]
    have hjr : j < ((List.range (numCols B)).map
        (fun j => dot A[i] (B.map (fun br => br.getD j 0)))).length := by
      simpa [hcols] using hj
    rw [List.getD_eq_getElem _ _ hjr, List.getElem_map, List.getElem_range]
    have hulen : A[i].length = n := hA.2 A[i] (List.getElem_mem hiA)
    have hvlen : (B.map (fun br => br.getD j 0)).length = n := by
      simp [hB.1]
    rw [dot, zipWith_mul_sum n A[i] (B.map (fun br => br.getD j 0)) hulen hvlen]
    refine Finset.sum_congr rfl ?_
    intro k hk
    rw [Finset.mem_range] at hk
    have hkB : k < B.length := by rw [hB.1]; exact hk
    have h1 : A[i].getD k 0 = entry A i k := by
      rw [entry, List.getD_eq_getElem _ _ hiA]
    have h2 : (B.map (fun br => br.getD j 0)).getD k 0 = entry B k j := by
      have hkB2 : k < (B.map (fun br => br.getD j 0)).length := by
        simpa using hkB
      rw [List.getD_eq_getElem _ _ hkB2, List.getElem_map, entry,
        List.getD_eq_getElem _ _ hkB]
    rw [h1, h2]


theorem addRowVec_shape (A : Mat) (v : Vec) (b h : Nat) (hA : wellShaped A b h)
    (hv : v.length = h) :
    wellShaped (addRowVec A v) b h ∧
      ∀ i j, i < b → j < h →
        entry (addRowVec A v) i j = entry A i j + v.getD j 0 := by
  constructor
  · refine ⟨by simp [addRowVec, hA.1], ?_⟩
    intro row hrow
    simp only [addRowVec, List.mem_map] at hrow
    obtain ⟨r, hr, rfl⟩ := hrow
    simp [hA.2 r hr, hv]
  · intro i j hi hj
    have hiA : i < A.length := by rw [hA.1]; exact hi
    have hiL : i < (addRowVec A v).length := by simpa [addRowVec] using hiA
    rw [entry, List.getD_eq_getElem _ _ hiL]
    simp only [addRowVec, List.getElem_map]
    have hrow : A[i].length = h := hA.2 A[i] (List.getElem_mem hiA)
    have hjz : j < (List.zipWith (fun a b => a + b) A[i] v).length := by
      simp [hrow, hv]; omega
    rw [List.getD_eq_getElem _ _ hjz, List.getElem_zipWith]
    rw [entry, List.getD_eq_getElem _ _ hiA,
      List.getD_eq_getElem A[i] _ (by rw [hrow]; exact hj),
      List.getD_eq_getElem v _ (by rw [hv]; exact hj)]

theorem matAdd_shape (A B : Mat) (b h : Nat) (hA : wellShaped A b h)
    (hB : wellShaped B b h) :
    wellShaped (matAdd A B) b h ∧
      ∀ i j, i < b → j < h →
        entry (matAdd A B) i j = entry A i j + entry B i j := by
  have hlen : (matAdd A B).length = b := by
    simp [matAdd, hA.1, hB.1]
  constructor
  · refine ⟨hlen, ?_⟩
    intro row hrow
    rw [List.mem_iff_getElem] at hrow
    obtain ⟨i, hi, rfl⟩ := hrow
    simp only [matAdd, List.getElem_zipWith]
    have hiA : i < A.length := by
      simp only [matAdd, List.length_zipWith] at hi
      omega
    have hiB : i < B.length := by
      simp only [matAdd, List.length_zipWith] at hi
      omega
    simp [hA.2 A[i] (List.getElem_mem hiA), hB.2 B[i] (List.getElem_mem hiB)]
  · intro i j hi hj
    have hiA : i < A.length := by rw [hA.1]; exact hi
    have hiB : i < B.length := by rw [hB.1]; exact hi
    have hiL : i < (matAdd A B).length := by rw [hlen]; exact hi
    rw [entry, List.getD_eq_getElem _ _ hiL]
    simp only [matAdd, List.getElem_zipWith]
    have hrA : A[i].length = h := hA.2 A[i] (List.getElem_mem hiA)
    have hrB : B[i].length = h := hB.2 B[i] (List.getElem_mem hiB)
    have hjz : j < (List.zipWith (fun a b => a + b) A[i] B[i]).length := by
      simp [hrA, hrB]; omega
    rw [List.getD_eq_getElem _ _ hjz, List.getElem_zipWith]
    rw [entry, List.getD_eq_getElem _ _ hiA,
      List.getD_eq_getElem A[i] _ (by rw [hrA]; exact hj)]
    rw [entry, List.getD_eq_getElem _ _ hiB,
      List.getD_eq_getElem B[i] _ (by rw [hrB]; exact hj)]

theorem tanhMat_shape (A : Mat) (b h : Nat) (hA : wellShaped A b h) :
    wellShaped (tanhMat A) b h ∧
      ∀ i j, i < b → j < h →
        entry (tanhMat A) i j = Real.tanh (entry A i j) := by
  constructor
  · refine ⟨by simp [tanhMat, hA.1], ?_⟩
    intro row hrow
    simp only [tanhMat, List.mem_map] at hrow
    obtain ⟨r, hr, rfl⟩ := hrow
    simp [hA.2 r hr]
  · intro i j hi hj
    have hiA : i < A.length := by rw [hA.1]; exact hi
    have hiL : i < (tanhMat A).length := by simpa [tanhMat] using hiA
    rw [entry, List.getD_eq_getElem _ _ hiL]
    simp only [tanhMat, List.getElem_map]
    have hrow : A[i].length = h := hA.2 A[i] (List.getElem_mem hiA)
    have hjm : j < (A[i].map Real.tanh).length := by simpa [hrow] using hj
    rw [List.getD_eq_getElem _ _ hjm, List.getElem_map]
    rw [entry, List.getD_eq_getElem _ _ hiA,
      List.getD_eq_getElem A[i] _ (by rw [hrow]; exact hj)]

theorem rnnStep_ok_entry (p : RNNScratch) (d h b : Nat) (hp : ParamsWF p d h)
    (hd : 0 < d) (X : Mat) (st : Option Mat) (hX : wellShaped X b d)
    (hst : stateOK st b h) :
    ∃ M, rnnStep p X st = .ok M ∧ wellShaped M b h ∧
      ∀ i j, i < b → j < h → entry M i j = specStepEntry p X st d h i j := by
  obtain ⟨hWxh, hWhh, hbh, _⟩ := hp
  obtain ⟨xh, hxh, hxhs, hxhe⟩ := matmul_ok_shape X p.W_xh b d h hX hWxh (Or.inl hd)
  cases hst with
  | inl hnone =>
      subst hnone
      obtain ⟨hadds, hadde⟩ := addRowVec_shape xh p.b_h b h hxhs hbh
      obtain ⟨htans, htane⟩ := tanhMat_shape (addRowVec xh p.b_h) b h hadds
      refine ⟨_, ?_, htans, ?_⟩
      · simp only [rnnStep, hxh, except_bind_ok, except_pure_eq, except_fmap_ok]
      · intro i j hi hj
        rw [htane i j hi hj, hadde i j hi hj, hxhe i j hi hj]
        simp [specStepEntry]
  | inr hsome =>
      obtain ⟨s, rfl, hs⟩ := hsome
      obtain ⟨hh, hmm2, hhhs, hhhe⟩ := matmul_ok_shape s p.W_hh b h h hs hWhh
        (by rcases Nat.eq_zero_or_pos h with h0 | hpos
            · exact Or.inr h0
            · exact Or.inl hpos)
      obtain ⟨hadds, hadde⟩ := matAdd_shape xh hh b h hxhs hhhs
      obtain ⟨hadds2, hadde2⟩ := addRowVec_shape (matAdd xh hh) p.b_h b h hadds hbh
      obtain ⟨htans, htane⟩ := tanhMat_shape (addRowVec (matAdd xh hh) p.b_h) b h hadds2
      refine ⟨_, ?_, htans, ?_⟩
      · simp only [rnnStep, hxh, hmm2, except_bind_ok, except_pure_eq, except_fmap_ok]
      · intro i j hi hj
        rw [htane i j hi hj, hadde2 i j hi hj, hadde i j hi hj, hxhe i j hi hj,
          hhhe i j hi hj]
        simp [specStepEntry]


/-- C1: one step of the recurrence computes, entrywise,
`tanh(x · W_xh + prev_state · W_hh + b_h)` with the recurrent term treated
as zero when the previous state is absent; and the sequence driver is the
in-order fold of this step over the inputs, appending each new state to
the output list. -/
theorem rnn_step_formula_and_fold (p : RNNScratch) (d h b : Nat) (hp : ParamsWF p d h)
    (hd : 0 < d) (X : Mat) (st : Option Mat) (hX : wellShaped X b d)
    (hst : stateOK st b h) (i j : Nat) (hi : i < b) (hj : j < h)
    (inputs : List Mat) (st0 : Option Mat) :
    Except.map (fun M => entry M i j) (rnnStep p X st) =
        .ok (specStepEntry p X st d h i j) ∧
      rnnForward p inputs st0 = specDriver p inputs st0 := by
  obtain ⟨M, hM, _, hent⟩ := rnnStep_ok_entry p d h b hp hd X st hX hst
  constructor
  · rw [hM, except_map_ok', hent i j hi hj]
  · exact rnnForward_eq_specDriver p inputs st0

theorem rnn_step_formula_and_fold_witness :
    Except.map (fun M => entry M 0 0) (rnnStep pW [[0]] none) =
        .ok (specStepEntry pW [[0]] none 1 1 0 0) ∧
      rnnForward pW [[[0]]] none = specDriver pW [[[0]]] none :=
  rnn_step_formula_and_fold pW 1 1 1
    (by simp [ParamsWF, pW, wellShaped]) (by norm_num) [[0]] none
    (by simp [wellShaped]) (Or.inl rfl) 0 0 (by norm_num) (by norm_num) [[[0]]] none

theorem initRNN_wf (d h : Nat) (draw : Nat → Nat → Nat → ℝ) :
    ParamsWF (initRNN d h draw) d h := by
  refine ⟨⟨by simp [initRNN], ?_⟩, ⟨by simp [initRNN], ?_⟩, by simp [initRNN], rfl⟩
  · intro row hrow
    simp only [initRNN, List.mem_map] at hrow
    obtain ⟨i, _, rfl⟩ := hrow
    simp
  · intro row hrow
    simp only [initRNN, List.mem_map] at hrow
    obtain ⟨i, _, rfl⟩ := hrow
    simp

theorem specDriver_shapes (p : RNNScratch) (d h b : Nat) (hp : ParamsWF p d h)
    (hd : 0 < d) :
    ∀ (inputs : List Mat) (st : Option Mat) (outs : List Mat) (fin : Option Mat),
      inputsShaped inputs b d → stateOK st b h →
      specDriver p inputs st = .ok (outs, fin) → ∀ M ∈ outs, wellShaped M b h := by
  intro inputs
  induction inputs with
  | nil =>
      intro st outs fin _ _ hok
      simp only [specDriver, Except.ok.injEq, Prod.mk.injEq] at hok
      rw [← hok.1]
      simp
  | cons X rest ih =>
      intro st outs fin hins hst hok
      simp only [specDriver] at hok
      obtain ⟨M, hM, hMs, _⟩ := rnnStep_ok_entry p d h b hp hd X st
        (hins X (by simp)) hst
      rw [hM, except_bind_ok] at hok
      cases hrest : specDriver p rest (some M) with
      | error e =>
          rw [hrest] at hok
          simp [except_bind_error, except_fmap_error] at hok
      | ok r =>
          obtain ⟨outs2, fin2⟩ := r
          rw [hrest] at hok
          simp only [except_bind_ok, except_fmap_ok, except_pure_eq,
            Except.ok.injEq, Prod.mk.injEq] at hok
          obtain ⟨h1, _⟩ := hok
          subst h1
          intro N hN
          rcases List.mem_cons.mp hN with hN1 | hN2
          · rw [hN1]; exact hMs
          · exact ih (some M) outs2 fin2 (fun Y hY => hins Y (by simp [hY]))
              (Or.inr ⟨M, rfl, hMs⟩) hrest N hN2

/-- C6: with well-formed parameters, a well-shaped step succeeds and its
output has shape exactly (batch_size, hidden_dim); construction fixes
hidden_dim so that it matches both dimensions of `W_hh` and the length of
`b_h`; and every hidden state a run of the driver produces keeps this
shape. -/
theorem rnn_shape_invariant (p : RNNScratch) (d h b : Nat) (hp : ParamsWF p d h)
    (hd : 0 < d) (X : Mat) (st : Option Mat) (hX : wellShaped X b d)
    (hst : stateOK st b h) (di hi2 : Nat) (draw : Nat → Nat → Nat → ℝ)
    (inputs : List Mat) (st0 : Option Mat) (hins : inputsShaped inputs b d)
    (hst0 : stateOK st0 b h) :
    okShaped (rnnStep p X st) b h ∧
      ParamsWF (initRNN di hi2 draw) di hi2 ∧
      outputsWellShaped (rnnForward p inputs st0) b h := by
  obtain ⟨M, hM, hMs, _⟩ := rnnStep_ok_entry p d h b hp hd X st hX hst
  refine ⟨by rw [hM]; exact hMs, initRNN_wf di hi2 draw, ?_⟩
  rw [rnnForward_eq_specDriver]
  cases hdrv : specDriver p inputs st0 with
  | error e => simp [outputsWellShaped]
  | ok r =>
      obtain ⟨outs, fin⟩ := r
      simp only [outputsWellShaped]
      exact specDriver_shapes p d h b hp hd inputs st0 outs fin hins hst0 hdrv

theorem rnn_shape_invariant_witness :
    okShaped (rnnStep pW [[0]] none) 1 1 ∧
      ParamsWF (initRNN 2 3 (fun _ _ _ => 0)) 2 3 ∧
      outputsWellShaped (rnnForward pW [[[0]]] none) 1 1 :=
  rnn_shape_invariant pW 1 1 1 (by simp [ParamsWF, pW, wellShaped]) (by norm_num)
    [[0]] none (by simp [wellShaped]) (Or.inl rfl) 2 3 (fun _ _ _ => 0)
    [[[0]]] none (by intro Y hY; simp at hY; simp [hY, wellShaped]) (Or.inl rfl)


theorem rnnForward_cons_error (p : RNNScratch) (X : Mat) (st : Option Mat)
    (rest : List Mat) (e : RNNError) (hstep : rnnStep p X st = .error e) :
    rnnForward p (X :: rest) st = .error e := by
  rw [rnnForward, List.foldl_cons]
  have hbody : callBody p (.ok ([], st)) X = .error e := by
    simp [callBody, except_bind_ok, hstep, except_fmap_error, except_bind_error]
  rw [hbody, foldl_callBody_error]

/-- C2: if the input's second dimension differs from `input_dim`, or the
supplied previous state's second dimension differs from `hidden_dim`, the
step fails with the shape-mismatch error, which the dimension guard raises
before any matrix arithmetic; the loop surfaces it to the caller at once,
returning no coerced result; and the module's state is untouched by any
call. -/
theorem rnn_step_shape_mismatch (p : RNNScratch) (d h : Nat) (hp : ParamsWF p d h)
    (X : Mat) (b dx : Nat) (st : Option Mat) (rest : List Mat)
    (s : Mat) (bs hs : Nat) (hX : wellShaped X b dx) (hs2 : wellShaped s bs hs)
    (inputs0 : List Mat) (wst0 : Option (List Mat))
    (hbad : (0 < b ∧ dx ≠ d) ∨ (dx = d ∧ st = some s ∧ 0 < bs ∧ hs ≠ h)) :
    rnnStep p X st = .error .shapeMismatch ∧
      rnnForward p (X :: rest) st = .error .shapeMismatch ∧
      (rnnCallM p inputs0 wst0).2 = p := by
  have hstep : rnnStep p X st = .error .shapeMismatch := by
    cases hbad with
    | inl hb =>
        obtain ⟨hbpos, hdx⟩ := hb
        cases X with
        | nil =>
            exfalso
            have hb0 : b = 0 := by simpa using hX.1.symm
            omega
        | cons r t =>
            have hr : r.length = dx := hX.2 r (by simp)
            have hmm : matmul (r :: t) p.W_xh = .error .shapeMismatch := by
              apply matmul_error _ _ r (by simp)
              rw [hr, hp.1.1]
              exact hdx
            simp only [rnnStep, hmm, except_bind_error]
    | inr hb =>
        obtain ⟨hdx, hstEq, hbspos, hhs⟩ := hb
        subst hstEq
        have hlens : ∀ r ∈ X, r.length = p.W_xh.length := by
          intro r hr
          rw [hX.2 r hr, hdx, hp.1.1]
        have hxh := matmul_ok X p.W_xh hlens
        cases s with
        | nil =>
            exfalso
            have hb0 : bs = 0 := by simpa using hs2.1.symm
            omega
        | cons r2 t2 =>
            have hr2 : r2.length = hs := hs2.2 r2 (by simp)
            have hmm2 : matmul (r2 :: t2) p.W_hh = .error .shapeMismatch := by
              apply matmul_error _ _ r2 (by simp)
              rw [hr2, hp.2.1.1]
              exact hhs
            simp only [rnnStep, hxh, except_bind_ok, hmm2, except_bind_error,
              except_fmap_error]
  exact ⟨hstep, rnnForward_cons_error p X st rest _ hstep, rfl⟩

theorem rnn_step_shape_mismatch_witness :
    rnnStep pW [[0, 0]] none = .error .shapeMismatch ∧
      rnnForward pW [[[0, 0]]] none = .error .shapeMismatch ∧
      (rnnCallM pW [] none).2 = pW :=
  rnn_step_shape_mismatch pW 1 1 (by simp [ParamsWF, pW, wellShaped])
    [[0, 0]] 1 2 none [] [[0]] 1 1 (by simp [wellShaped]) (by simp [wellShaped])
    [] none (Or.inl ⟨one_pos, by norm_num⟩)


theorem zipWith_mul_replicate_zero :
    ∀ (v : Vec) (n : Nat),
      (List.zipWith (fun a b => a * b) (List.replicate n (0 : ℝ)) v).sum = 0 := by
  intro v
  induction v with
  | nil => intro n; simp
  | cons b v2 ih =>
      intro n
      cases n with
      | zero => simp
      | succ n => simp [List.replicate_succ, ih n]

theorem dot_replicate_zero (n : Nat) (v : Vec) : dot (List.replicate n 0) v = 0 := by
  rw [dot]
  exact zipWith_mul_replicate_zero v n

theorem zipWith_add_replicate_zero :
    ∀ (r : Vec) (n : Nat), r.length ≤ n →
      List.zipWith (fun a b => a + b) r (List.replicate n (0 : ℝ)) = r := by
  intro r
  induction r with
  | nil => intro n _; simp
  | cons a t ih =>
      intro n hn
      cases n with
      | zero => simp at hn
      | succ n =>
          simp only [List.replicate_succ, List.zipWith_cons_cons, add_zero]
          rw [ih n (by simpa using hn)]

theorem matAdd_replicate_zero (nc : Nat) :
    ∀ A : Mat, (∀ r ∈ A, r.length ≤ nc) →
      matAdd A (List.replicate A.length (List.replicate nc 0)) = A := by
  intro A
  induction A with
  | nil => intro _; rfl
  | cons r t ih =>
      intro hr
      simp only [List.length_cons, List.replicate_succ, matAdd,
        List.zipWith_cons_cons]
      rw [zipWith_add_replicate_zero r nc (hr r (by simp))]
      have ht := ih (fun r2 h2 => hr r2 (by simp [h2]))
      rw [matAdd] at ht
      rw [ht]

theorem numCols_Wxh_le (p : RNNScratch) (d h : Nat) (hp : ParamsWF p d h) :
    numCols p.W_xh ≤ numCols p.W_hh := by
  obtain ⟨⟨hxl, hxr⟩, ⟨hhl, hhr⟩, _, _⟩ := hp
  cases hwx : p.W_xh with
  | nil => simp [numCols]
  | cons r t =>
      have hr : r.length = h := hxr r (by rw [hwx]; simp)
      cases hwh : p.W_hh with
      | nil =>
          rw [hwh] at hhl
          simp only [List.length_nil] at hhl
          simp [numCols, hr, ← hhl]
      | cons r2 t2 =>
          have hr2 : r2.length = h := hhr r2 (by rw [hwh]; simp)
          simp [numCols, hr, hr2]

theorem matmul_ok_inv (A B C : Mat) (h : matmul A B = .ok C) :
    C = A.map (fun r => (List.range (numCols B)).map
      (fun j => dot r (B.map (fun br => br.getD j 0)))) := by
  rw [matmul] at h
  by_cases hc : A.all (fun r => r.length == B.length)
  · rw [if_pos hc] at h
    exact (Except.ok.inj h).symm
  · rw [if_neg hc] at h
    simp at h

/-- C3: running one step with an absent previous state gives exactly the
same result as running it with an all-zeros previous state of shape
(batch_size, hidden_dim). -/
theorem rnn_step_none_eq_zeros (p : RNNScratch) (d h : Nat) (hp : ParamsWF p d h)
    (X : Mat) :
    rnnStep p X none = rnnStep p X (some (zeros X.length h)) := by
  cases hxh : matmul X p.W_xh with
  | error e => simp only [rnnStep, hxh, except_bind_error]
  | ok xh =>
      have hWhh := hp.2.1
      have hzmm : matmul (zeros X.length h) p.W_hh =
          .ok (List.replicate X.length (List.replicate (numCols p.W_hh) 0)) := by
        have hlens : ∀ r ∈ zeros X.length h, r.length = p.W_hh.length := by
          intro r hr
          rw [List.eq_of_mem_replicate hr]
          simp [hWhh.1]
        rw [matmul_ok _ _ hlens, zeros, List.map_replicate]
        have hz : ((List.range (numCols p.W_hh)).map
            (fun j => dot (List.replicate h 0)
              (p.W_hh.map (fun br => br.getD j 0)))) =
            List.replicate (numCols p.W_hh) (0 : ℝ) := by
          rw [List.map_congr_left
            (fun j _ => dot_replicate_zero h (p.W_hh.map (fun br => br.getD j 0)))]
          simp [List.map_const']
        rw [hz]
      have hxhC := matmul_ok_inv X p.W_xh xh hxh
      have hxh_len : xh.length = X.length := by rw [hxhC]; simp
      have hxh_rows : ∀ r ∈ xh, r.length ≤ numCols p.W_hh := by
        intro r hr
        rw [hxhC] at hr
        simp only [List.mem_map] at hr
        obtain ⟨r0, _, rfl⟩ := hr
        simp only [List.length_map, List.length_range]
        exact numCols_Wxh_le p d h hp
      have hadd : matAdd xh
          (List.replicate X.length (List.replicate (numCols p.W_hh) 0)) = xh := by
        rw [← hxh_len]
        exact matAdd_replicate_zero (numCols p.W_hh) xh hxh_rows
      simp only [rnnStep, hxh, except_bind_ok, hzmm, except_pure_eq,
        except_fmap_ok, hadd]

theorem rnn_step_none_eq_zeros_witness :
    rnnStep pW [[0]] none = rnnStep pW [[0]] (some (zeros ([[(0 : ℝ)]]).length 1)) :=
  rnn_step_none_eq_zeros pW 1 1 (by simp [ParamsWF, pW, wellShaped]) [[0]]

end
